import Mathlib

/-!
Verification of `monad_exploration.js`.

A shallow embedding of `src/monad_exploration.js` and the properties of its
three pipelines: plain composition (`compose`), the writer-style debug
pipeline (`debugBind`, `composeValueMessage`) and the list pipeline
(`multiValueBind`, `composeMultiValue`).

JavaScript values are untyped; a pipeline is embedded over one carrier type
`α` of values, so every stage of a pipeline is a function on `α`.

The example stages work on JavaScript numbers.  The embedding covers the
numbers that the stages can produce from an integer input: the integer-valued
IEEE 754 doubles, the two infinities and `NaN` (`JSNumber`).  Arithmetic on
them is the exact integer operation followed by rounding to the nearest
double; `-0` is identified with `0`, which no operation used here can tell
apart.  The stage `first3Multiples` uses only the product and two literals and
is embedded over any carrier that has them, `JSNumber` being one.
-/

namespace MonadExploration

/-! ## Host array primitives -/

/-- The loop of `Array.prototype.reduceRight` called with an initial value:
the index `k` runs from `length - 1` down to `0`, and at every index that is
present the accumulator becomes `callback accumulator xs[k]`.  The first
argument is the number of indices still to visit. -/
def reduceRightLoop {α β : Type} (callback : β → α → β) (xs : List α) : Nat → β → β
  | 0, accumulator => accumulator
  | k + 1, accumulator =>
    match xs[k]? with
    | some x => reduceRightLoop callback xs k (callback accumulator x)
    | none => reduceRightLoop callback xs k accumulator

/-- The call `xs.reduceRight(callback, initialValue)`. -/
def reduceRight {α β : Type} (callback : β → α → β) (initialValue : β) (xs : List α) : β :=
  reduceRightLoop callback xs xs.length initialValue

/-- Source: `arr.flat()` with the default depth 1, on an array whose elements
are all arrays: the elements of each inner array are appended to the target in
order. -/
def flat {α : Type} (xs : List (List α)) : List α :=
  xs.foldl (fun target element => target ++ element) []

/-! ## Composer -/

/-- Source: `compose = (...fns) => initial =>
fns.reduceRight((accumulator, nextFn) => nextFn(accumulator), initial)`. -/
def compose {α : Type} (fns : List (α → α)) (initial : α) : α :=
  reduceRight (fun accumulator nextFn => nextFn accumulator) initial fns

/-! ## Writer-style debug pipeline -/

/-- The object `{value, message}`. -/
structure DebugPair (α : Type) where
  value : α
  message : String
deriving DecidableEq

/-- Source: `debugBind = debugFn => ({value: previousValue, message: previousMessage}) => {...}`. -/
def debugBind {α : Type} (debugFn : α → DebugPair α) (previous : DebugPair α) : DebugPair α :=
  match previous with
  | { value := previousValue, message := previousMessage } =>
    match debugFn previousValue with
    | { value := nextValue, message := nextMessage } =>
      { value := nextValue, message := previousMessage ++ nextMessage }

/-- Source: `composeValueMessage = (...valueMessages) => initial =>
valueMessages.reduceRight((accumulator, nextFn) => debugBind(nextFn)(accumulator),
{value: initial, message: ""})`. -/
def composeValueMessage {α : Type} (valueMessages : List (α → DebugPair α)) (initial : α) :
    DebugPair α :=
  reduceRight (fun accumulator nextFn => debugBind nextFn accumulator)
    { value := initial, message := "" } valueMessages

/-- Source: `debugLift = fn => x => ({value: fn(x), message: ""})`. -/
def debugLift {α : Type} (fn : α → α) (x : α) : DebugPair α :=
  { value := fn x, message := "" }

/-- Source: `debugUnit = x => ({value: x, message: ""})`. -/
def debugUnit {α : Type} (x : α) : DebugPair α :=
  { value := x, message := "" }

/-- The message fragment that the stage at index `i` of the list (index 0 is the
first-listed stage) returns during a run of the pipeline on `x`: the stage is
applied to the value produced by the stages listed after it. -/
def stageFragment {α : Type} (stages : List (α → DebugPair α)) (x : α) (i : Nat) : String :=
  match stages.drop i with
  | [] => ""
  | s :: rest => (s (composeValueMessage rest x).value).message

/-! ## List pipeline -/

/-- Source: `multiValueBind = multiValueFn => array => array.map(multiValueFn).flat()`.
The host `map` also hands the index and the array to its callback; a stage is a
unary function and does not see them. -/
def multiValueBind {α : Type} (multiValueFn : α → List α) (array : List α) : List α :=
  flat (array.map multiValueFn)

/-- Source: `multiValueUnit = x => [x]`. -/
def multiValueUnit {α : Type} (x : α) : List α := [x]

/-- Source: `composeMultiValue = (...multiValueFns) => initial =>
multiValueFns.reduceRight((accumulator, nextFn) => multiValueBind(nextFn)(accumulator),
multiValueUnit(initial))`. -/
def composeMultiValue {α : Type} (multiValueFns : List (α → List α)) (initial : α) : List α :=
  reduceRight (fun accumulator nextFn => multiValueBind nextFn accumulator)
    (multiValueUnit initial) multiValueFns

/-- Source: `multiValueLift = multiValueFn => x => [multiValueFn(x)]`. -/
def multiValueLift {α : Type} (multiValueFn : α → α) (x : α) : List α := [multiValueFn x]

/-! ## Host numbers -/

/-- The JavaScript numbers reachable from integer inputs: a finite
integer-valued double (given by its integer value), plus or minus infinity,
and `NaN`. -/
inductive JSNumber
  | finite (n : Int)
  | infinity (negative : Bool)
  | nan
deriving DecidableEq

/-- Number of binary digits of `m`, by halving; the first argument bounds the
number of steps. -/
def bitLengthAux : Nat → Nat → Nat
  | 0, _ => 0
  | fuel + 1, m => if m = 0 then 0 else bitLengthAux fuel (m / 2) + 1

/-- Number of binary digits of `m` (`0` for `m = 0`). -/
def bitLength (m : Nat) : Nat := bitLengthAux m m

/-- Round a natural number to the nearest value with a 53-bit significand,
ties to the even significand (IEEE 754 round-to-nearest-even, exponent range
unbounded). -/
def roundNat (m : Nat) : Nat :=
  if m < 2 ^ 53 then m
  else
    let e := bitLength m - 53
    let q := m / 2 ^ e
    let r := m % 2 ^ e
    let half := 2 ^ (e - 1)
    if half < r ∨ (r = half ∧ q % 2 = 1) then (q + 1) * 2 ^ e else q * 2 ^ e

/-- The double nearest to the integer `n`; a magnitude that rounds to `2^1024`
or more overflows to an infinity. -/
def toNumber (n : Int) : JSNumber :=
  let m := roundNat n.natAbs
  if 1024 < bitLength m then JSNumber.infinity (decide (n < 0))
  else if n < 0 then JSNumber.finite (-(m : Int)) else JSNumber.finite m

/-- The operator `+` on numbers. -/
def JSNumber.add : JSNumber → JSNumber → JSNumber
  | .finite a, .finite b => toNumber (a + b)
  | .nan, _ => .nan
  | _, .nan => .nan
  | .infinity s, .finite _ => .infinity s
  | .finite _, .infinity s => .infinity s
  | .infinity s, .infinity t => if s = t then .infinity s else .nan

/-- The operator `*` on numbers. -/
def JSNumber.mul : JSNumber → JSNumber → JSNumber
  | .finite a, .finite b => toNumber (a * b)
  | .nan, _ => .nan
  | _, .nan => .nan
  | .infinity s, .finite b => if b = 0 then .nan else .infinity (xor s (decide (b < 0)))
  | .finite a, .infinity s => if a = 0 then .nan else .infinity (xor (decide (a < 0)) s)
  | .infinity s, .infinity t => .infinity (xor s t)

/-- The call `Math.pow(x, y)` for a natural-number exponent `y`, taken as the
exact power rounded to the nearest double (the host may approximate a power
that is not a double; a power that is one is returned exactly). -/
def mathPow : JSNumber → Nat → JSNumber
  | _, 0 => .finite 1
  | .finite a, y + 1 => toNumber (a ^ (y + 1))
  | .infinity s, y + 1 => .infinity (s && decide ((y + 1) % 2 = 1))
  | .nan, _ + 1 => .nan

/-! ## Host number formatting -/

/-- Decimal digits of `m`, most significant first, accumulated by repeated
division by ten; the first argument bounds the number of steps. -/
def decimalDigitsAux : Nat → Nat → List Nat → List Nat
  | 0, _, acc => acc
  | fuel + 1, m, acc =>
    if m < 10 then m :: acc else decimalDigitsAux fuel (m / 10) (m % 10 :: acc)

/-- Decimal digits of `m`, most significant first (`[0]` for `m = 0`). -/
def decimalDigits (m : Nat) : List Nat := decimalDigitsAux (m + 1) m []

/-- The character of a decimal digit. -/
def digitChar (d : Nat) : Char := Char.ofNat (48 + d)

/-- The plain decimal numeral of `m`. -/
def decimal (m : Nat) : String := String.mk ((decimalDigits m).map digitChar)

/-- The plain decimal numeral of an integer, with a leading `-` when negative. -/
def decimalInt (n : Int) : String :=
  if n < 0 then "-" ++ decimal n.natAbs else decimal n.natAbs

/-- Candidates with `k` significant digits for the shortest decimal that reads
back as the double `m`, where `m` has `D` digits: the multiples of `10^(D-k)`
just below and just above `m`.  Of those that round to `m` the closer one is
taken, and on a tie the one whose significand is even. -/
def shortestAt (m D k : Nat) : Option Nat :=
  let p := 10 ^ (D - k)
  let lo := m / p * p
  let hi := lo + p
  match roundNat lo == m, roundNat hi == m with
  | true, true =>
    some (if m - lo < hi - m then lo else if hi - m < m - lo then hi
          else if (m / p) % 2 = 0 then lo else hi)
  | true, false => some lo
  | false, true => some hi
  | false, false => none

/-- Search for the least number of significant digits `k`, `k + 1`, ... that
has a candidate; the first argument bounds the number of steps. -/
def shortestFrom (m D : Nat) : Nat → Nat → Nat
  | 0, _ => m
  | fuel + 1, k =>
    match shortestAt m D k with
    | some v => v
    | none => shortestFrom m D fuel (k + 1)

/-- The value `s * 10^(n-k)` of `Number::toString`: the decimal with the fewest
significant digits that rounds to the double `m`. -/
def shortestDecimal (m : Nat) : Nat :=
  shortestFrom m (decimalDigits m).length (decimalDigits m).length 1

/-- Drop the trailing zeros of a digit list. -/
def stripZeros : List Nat → List Nat
  | [] => []
  | d :: ds =>
    match stripZeros ds with
    | [] => if d = 0 then [] else [d]
    | d' :: ds' => d :: d' :: ds'

/-- `Number::toString` in radix 10 on a non-negative integer-valued double:
plain digits below `10^21`, exponent form `d.ddde+x` from there on. -/
def natToString (m : Nat) : String :=
  let v := shortestDecimal m
  if v < 10 ^ 21 then decimal v
  else
    let n := (decimalDigits v).length
    match stripZeros (decimalDigits v) with
    | [] => "0"
    | [d] => String.mk [digitChar d] ++ "e+" ++ decimal (n - 1)
    | d :: ds => String.mk (digitChar d :: '.' :: ds.map digitChar) ++ "e+" ++ decimal (n - 1)

/-- The host conversion of a number to a string, as done by `toString()` and
by a template literal. -/
def numberToString : JSNumber → String
  | .nan => "NaN"
  | .infinity false => "Infinity"
  | .infinity true => "-Infinity"
  | .finite n => if n < 0 then "-" ++ natToString n.natAbs else natToString n.natAbs

/-! ## Example stages -/

/-- Source: `debugAdd5 = x => ({value: x + 5, message: ${x} + 5 = ${x + 5}.})`
(the message is a template literal). -/
def debugAdd5 (x : JSNumber) : DebugPair JSNumber :=
  { value := x.add (.finite 5),
    message := numberToString x ++ " + 5 = " ++ numberToString (x.add (.finite 5)) ++ "." }

/-- Source: `debugSquare = x => ({value : Math.pow(x,2),
message: ${x}^2 = ${Math.pow(x,2)}.})` (the message is a template literal). -/
def debugSquare (x : JSNumber) : DebugPair JSNumber :=
  { value := mathPow x 2,
    message := numberToString x ++ "^2 = " ++ numberToString (mathPow x 2) ++ "." }

/-- Characters that `ToNumber` strips as white space or line terminators. -/
def isStrWhiteSpaceChar (c : Char) : Bool :=
  c.toNat ∈ [0x9, 0xA, 0xB, 0xC, 0xD, 0x20, 0xA0, 0x1680, 0x2000, 0x2001, 0x2002, 0x2003,
    0x2004, 0x2005, 0x2006, 0x2007, 0x2008, 0x2009, 0x200A, 0x2028, 0x2029, 0x202F, 0x205F,
    0x3000, 0xFEFF]

/-- The host conversion `ToNumber` on a one-character string: a decimal digit
is its value, a white-space character leaves the empty string, which is `0`,
and every other character is `NaN`. -/
def charToNumber (c : Char) : JSNumber :=
  if c.isDigit then .finite (c.toNat - 48)
  else if isStrWhiteSpaceChar c then .finite 0
  else .nan

/-- The global `isNaN` applied to a one-character string. -/
def isNaN (c : Char) : Bool :=
  match charToNumber c with
  | .nan => true
  | _ => false

/-- The call `Number.parseInt(x)` on a one-character string: a decimal digit
is its value and every other character gives `NaN`. -/
def parseInt (c : Char) : JSNumber :=
  if c.isDigit then .finite (c.toNat - 48) else .nan

/-- Source: `not = boolFn => x => !boolFn(x)`. -/
def not {α : Type} (boolFn : α → Bool) (x : α) : Bool := !boolFn x

/-- Source: `digitList = number =>
number.toString().split("").filter(not(isNaN)).map(x => Number.parseInt(x))`.
The one-character strings produced by `split("")` are characters. -/
def digitList (number : JSNumber) : List JSNumber :=
  (((numberToString number).toList).filter (not isNaN)).map (fun x => parseInt x)

/-- The operator `*` of the source on host numbers. -/
instance : Mul JSNumber := ⟨JSNumber.mul⟩

/-- A natural-number literal of the source is the double nearest to it. -/
instance (n : Nat) : OfNat JSNumber n := ⟨toNumber n⟩

/-- Source: `first3Multiples = x => [x, x * 2, x * 3]`, over any carrier of
numbers with a product `*` and the literals `2` and `3`; on `JSNumber` the
product is `JSNumber.mul`. -/
def first3Multiples {α : Type} [Mul α] [OfNat α 2] [OfNat α 3] (x : α) : List α :=
  [x, x * 2, x * 3]

/-- Characters that the host number formatting can produce: the decimal
digits, the sign, the decimal point, the exponent mark and the letters of
`Infinity` and `NaN`. -/
def isFormatChar (c : Char) : Bool :=
  c.isDigit || ['-', '+', '.', 'e', 'N', 'a', 'I', 'n', 'f', 'i', 't', 'y'].contains c


/-! ## Lemmas on `reduceRight` -/

theorem reduceRightLoop_eq_foldr {α β : Type} (callback : β → α → β) (xs : List α) :
    ∀ (k : Nat) (acc : β), k ≤ xs.length →
      reduceRightLoop callback xs k acc = (xs.take k).foldr (fun x a => callback a x) acc := by
  intro k
  induction k with
  | zero => intro acc _; simp [reduceRightLoop]
  | succ k ih =>
    intro acc hk
    have hlt : k < xs.length := hk
    have hget : xs[k]? = some xs[k] := List.getElem?_eq_getElem hlt
    have htake : xs.take (k + 1) = xs.take k ++ [xs[k]] := by
      rw [List.take_succ, hget]; rfl
    simp only [reduceRightLoop, hget]
    rw [ih _ (Nat.le_of_lt hlt), htake, List.foldr_append]
    rfl

theorem reduceRight_eq_foldr {α β : Type} (callback : β → α → β) (init : β) (xs : List α) :
    reduceRight callback init xs = xs.foldr (fun x a => callback a x) init := by
  unfold reduceRight
  rw [reduceRightLoop_eq_foldr callback xs xs.length init (Nat.le_refl _), List.take_length]

theorem reduceRight_nil {α β : Type} (callback : β → α → β) (init : β) :
    reduceRight callback init ([] : List α) = init := rfl

theorem reduceRight_cons {α β : Type} (callback : β → α → β) (init : β) (x : α) (xs : List α) :
    reduceRight callback init (x :: xs) = callback (reduceRight callback init xs) x := by
  simp [reduceRight_eq_foldr]

/-! ## Lemmas on the pipelines -/

theorem composeValueMessage_nil {α : Type} (x : α) :
    composeValueMessage ([] : List (α → DebugPair α)) x = debugUnit x := rfl

theorem composeValueMessage_cons {α : Type} (s : α → DebugPair α)
    (rest : List (α → DebugPair α)) (x : α) :
    composeValueMessage (s :: rest) x = debugBind s (composeValueMessage rest x) := by
  simp [composeValueMessage, reduceRight_cons]

theorem debugBind_message {α : Type} (step : α → DebugPair α) (p : DebugPair α) :
    (debugBind step p).message = p.message ++ (step p.value).message := rfl

theorem debugBind_value {α : Type} (step : α → DebugPair α) (p : DebugPair α) :
    (debugBind step p).value = (step p.value).value := rfl

theorem string_join_snoc (l : List String) (a : String) :
    String.join (l ++ [a]) = String.join l ++ a := by
  simp [String.join, List.foldl_append]

theorem stageFragment_zero {α : Type} (s : α → DebugPair α) (rest : List (α → DebugPair α))
    (x : α) :
    stageFragment (s :: rest) x 0 = (s (composeValueMessage rest x).value).message := rfl

theorem stageFragment_succ {α : Type} (s : α → DebugPair α) (rest : List (α → DebugPair α))
    (x : α) (i : Nat) :
    stageFragment (s :: rest) x (i + 1) = stageFragment rest x i := rfl

theorem foldl_append_eq {α : Type} (xs : List (List α)) (acc : List α) :
    xs.foldl (fun target element => target ++ element) acc
      = acc ++ xs.foldl (fun target element => target ++ element) [] := by
  induction xs generalizing acc with
  | nil => simp
  | cons y ys ih =>
    simp only [List.foldl_cons, List.nil_append]
    rw [ih (acc ++ y), ih y, List.append_assoc]

theorem flat_nil {α : Type} : flat ([] : List (List α)) = [] := rfl

theorem flat_cons {α : Type} (y : List α) (ys : List (List α)) :
    flat (y :: ys) = y ++ flat ys := by
  simp only [flat, List.foldl_cons, List.nil_append]
  exact foldl_append_eq ys y

theorem flat_eq_flatten {α : Type} (xs : List (List α)) : flat xs = xs.flatten := by
  induction xs with
  | nil => rfl
  | cons y ys ih => rw [flat_cons, ih, List.flatten_cons]

theorem multiValueBind_nil {α : Type} (step : α → List α) : multiValueBind step [] = [] := rfl

theorem multiValueBind_cons {α : Type} (step : α → List α) (a : α) (as : List α) :
    multiValueBind step (a :: as) = step a ++ multiValueBind step as := by
  simp [multiValueBind, flat_cons]

theorem multiValueBind_append {α : Type} (step : α → List α) (xs ys : List α) :
    multiValueBind step (xs ++ ys) = multiValueBind step xs ++ multiValueBind step ys := by
  induction xs with
  | nil => simp [multiValueBind_nil]
  | cons a as ih => simp [multiValueBind_cons, ih]

theorem composeMultiValue_nil {α : Type} (x : α) :
    composeMultiValue ([] : List (α → List α)) x = [x] := rfl

theorem composeMultiValue_cons {α : Type} (s : α → List α) (rest : List (α → List α)) (x : α) :
    composeMultiValue (s :: rest) x = multiValueBind s (composeMultiValue rest x) := by
  simp [composeMultiValue, reduceRight_cons]

/-! ## Lemmas on the number model -/

theorem bitLengthAux_zero (fuel : Nat) : bitLengthAux fuel 0 = 0 := by
  cases fuel <;> simp [bitLengthAux]

theorem pow_bitLengthAux_le : ∀ (fuel m : Nat), m ≤ fuel → m ≠ 0 →
    2 ^ bitLengthAux fuel m ≤ 2 * m := by
  intro fuel
  induction fuel with
  | zero => intro m hm h0; omega
  | succ fuel ih =>
    intro m hm h0
    simp only [bitLengthAux, h0, if_false]
    by_cases h2 : m / 2 = 0
    · rw [h2, bitLengthAux_zero]
      omega
    · have := ih (m / 2) (by omega) h2
      rw [Nat.pow_succ]
      omega

theorem lt_pow_bitLengthAux : ∀ (fuel m : Nat), m ≤ fuel → m < 2 ^ bitLengthAux fuel m := by
  intro fuel
  induction fuel with
  | zero => intro m hm; simp [bitLengthAux]; omega
  | succ fuel ih =>
    intro m hm
    by_cases h0 : m = 0
    · simp [bitLengthAux, h0]
    · simp only [bitLengthAux, h0, if_false]
      have := ih (m / 2) (by omega)
      rw [Nat.pow_succ]
      omega

theorem pow_bitLength_le (m : Nat) (h0 : m ≠ 0) : 2 ^ bitLength m ≤ 2 * m :=
  pow_bitLengthAux_le m m (Nat.le_refl m) h0

theorem lt_pow_bitLength (m : Nat) : m < 2 ^ bitLength m :=
  lt_pow_bitLengthAux m m (Nat.le_refl m)

theorem bitLength_le_of_lt (m j : Nat) (h : m < 2 ^ j) : bitLength m ≤ j := by
  by_cases h0 : m = 0
  · subst h0
    simp [bitLength, bitLengthAux]
  · have h1 := pow_bitLength_le m h0
    have h2 : 2 ^ bitLength m < 2 ^ (j + 1) := by
      rw [Nat.pow_succ]; omega
    have h3 := (Nat.pow_lt_pow_iff_right (by decide : 1 < 2)).mp h2
    omega

theorem roundNat_of_lt (m : Nat) (h : m < 2 ^ 53) : roundNat m = m := by
  unfold roundNat
  rw [if_pos h]

theorem le_roundNat_of_le (v : Nat) (h : 2 ^ 53 ≤ v) : 2 ^ 53 ≤ roundNat v := by
  have hv0 : v ≠ 0 := by
    intro h0
    rw [h0] at h
    exact absurd h (by decide)
  have hlt := lt_pow_bitLength v
  have hle := pow_bitLength_le v hv0
  have hbl : 53 < bitLength v := by
    have h2 : 2 ^ 53 < 2 ^ bitLength v := Nat.lt_of_le_of_lt h hlt
    exact (Nat.pow_lt_pow_iff_right (by decide : 1 < 2)).mp h2
  obtain ⟨e, he⟩ : ∃ e, bitLength v = e + 54 := ⟨bitLength v - 54, by omega⟩
  have hsub : bitLength v - 53 = e + 1 := by omega
  have hpow : 2 ^ bitLength v = 2 * (2 ^ 52 * 2 ^ (e + 1)) := by
    rw [he, ← Nat.pow_add, ← Nat.pow_succ']
    congr 1
    omega
  have hbig : 2 ^ 52 * 2 ^ (e + 1) ≤ v := by omega
  have hpe : 0 < 2 ^ (e + 1) := Nat.pow_pos (by decide)
  have hq : 2 ^ 52 ≤ v / 2 ^ (e + 1) := (Nat.le_div_iff_mul_le hpe).mpr hbig
  have h2e : 2 ≤ 2 ^ (e + 1) := by
    rw [Nat.pow_succ]; omega
  have hq2 : 2 ^ 53 ≤ v / 2 ^ (e + 1) * 2 ^ (e + 1) := by
    calc 2 ^ 53 = 2 ^ 52 * 2 := by norm_num
      _ ≤ v / 2 ^ (e + 1) * 2 ^ (e + 1) := Nat.mul_le_mul hq h2e
  have hnot : ¬ v < 2 ^ 53 := Nat.not_lt.mpr h
  simp only [roundNat, hnot, if_false, hsub]
  split
  · calc 2 ^ 53 ≤ v / 2 ^ (e + 1) * 2 ^ (e + 1) := hq2
      _ ≤ (v / 2 ^ (e + 1) + 1) * 2 ^ (e + 1) :=
        Nat.mul_le_mul_right _ (Nat.le_succ _)
  · exact hq2

theorem eq_of_roundNat_eq_of_lt (v m : Nat) (h : roundNat v = m) (hm : m < 2 ^ 53) : v = m := by
  by_cases hv : v < 2 ^ 53
  · rw [roundNat_of_lt v hv] at h
    exact h
  · have := le_roundNat_of_le v (Nat.le_of_not_lt hv)
    omega

theorem shortestAt_some (m D k v : Nat) (h : shortestAt m D k = some v) : roundNat v = m := by
  unfold shortestAt at h
  simp only at h
  split at h
  · next h1 h2 =>
    have e1 := eq_of_beq h1
    have e2 := eq_of_beq h2
    injection h with h
    rw [← h]
    split
    · exact e1
    · split
      · exact e2
      · split
        · exact e1
        · exact e2
  · next h1 _ =>
    injection h with h
    rw [← h]
    exact eq_of_beq h1
  · next _ h2 =>
    injection h with h
    rw [← h]
    exact eq_of_beq h2
  · exact absurd h (by simp)

theorem shortestFrom_spec (m D : Nat) : ∀ (fuel k : Nat),
    shortestFrom m D fuel k = m ∨ roundNat (shortestFrom m D fuel k) = m := by
  intro fuel
  induction fuel with
  | zero => intro k; exact Or.inl rfl
  | succ fuel ih =>
    intro k
    simp only [shortestFrom]
    split
    · next v hv => exact Or.inr (shortestAt_some m D k v hv)
    · exact ih (k + 1)

theorem shortestDecimal_of_lt (m : Nat) (h : m < 2 ^ 53) : shortestDecimal m = m := by
  unfold shortestDecimal
  rcases shortestFrom_spec m (decimalDigits m).length (decimalDigits m).length 1 with h1 | h1
  · exact h1
  · exact eq_of_roundNat_eq_of_lt _ m h1 h

theorem natToString_of_lt (m : Nat) (h : m < 2 ^ 53) : natToString m = decimal m := by
  have h21 : m < 10 ^ 21 := Nat.lt_trans h (by norm_num)
  unfold natToString
  simp only [shortestDecimal_of_lt m h]
  rw [if_pos h21]

theorem toNumber_of_lt (n : Int) (h : n.natAbs < 2 ^ 53) : toNumber n = .finite n := by
  have hb : bitLength n.natAbs ≤ 53 := bitLength_le_of_lt _ _ h
  have hnb : ¬ 1024 < bitLength n.natAbs := by omega
  simp only [toNumber, roundNat_of_lt _ h, hnb, if_false]
  split
  · next hneg =>
    congr 1
    omega
  · next hpos =>
    congr 1
    omega

theorem numberToString_of_lt (n : Int) (h : n.natAbs < 2 ^ 53) :
    numberToString (.finite n) = decimalInt n := by
  simp [numberToString, decimalInt, natToString_of_lt _ h]

/-! ## Lemmas on decimal digits and characters -/

theorem decimalDigitsAux_eq : ∀ (fuel m : Nat) (acc : List Nat), m < fuel → m ≠ 0 →
    decimalDigitsAux fuel m acc = (Nat.digits 10 m).reverse ++ acc := by
  intro fuel
  induction fuel with
  | zero => intro m acc hm; omega
  | succ fuel ih =>
    intro m acc hm h0
    by_cases h10 : m < 10
    · simp [decimalDigitsAux, h10, Nat.digits_of_lt 10 m h0 h10]
    · simp only [decimalDigitsAux, h10, if_false]
      rw [ih (m / 10) _ (by omega) (by omega),
        Nat.digits_def' (by decide : 1 < 10) (Nat.pos_of_ne_zero h0)]
      simp

theorem decimalDigits_eq (m : Nat) (h0 : m ≠ 0) :
    decimalDigits m = (Nat.digits 10 m).reverse := by
  unfold decimalDigits
  rw [decimalDigitsAux_eq (m + 1) m [] (Nat.lt_succ_self m) h0, List.append_nil]

theorem decimalDigits_zero : decimalDigits 0 = [0] := rfl

theorem decimalDigits_lt (m d : Nat) (h : d ∈ decimalDigits m) : d < 10 := by
  by_cases h0 : m = 0
  · subst h0
    rw [decimalDigits_zero] at h
    simp at h
    omega
  · rw [decimalDigits_eq m h0, List.mem_reverse] at h
    exact Nat.digits_lt_base (by decide) h

theorem decimalDigits_ne_nil (m : Nat) : decimalDigits m ≠ [] := by
  by_cases h0 : m = 0
  · subst h0
    rw [decimalDigits_zero]
    exact List.cons_ne_nil _ _
  · rw [decimalDigits_eq m h0]
    intro h
    rw [List.reverse_eq_nil_iff] at h
    exact h0 (Nat.digits_eq_nil_iff_eq_zero.mp h)

theorem ofDigits_decimalDigits (m : Nat) : Nat.ofDigits 10 (decimalDigits m).reverse = m := by
  by_cases h0 : m = 0
  · subst h0
    rfl
  · rw [decimalDigits_eq m h0, List.reverse_reverse, Nat.ofDigits_digits]

theorem length_decimalDigits (m : Nat) : (decimalDigits m).length = Nat.log 10 m + 1 := by
  by_cases h0 : m = 0
  · subst h0
    simp [decimalDigits_zero]
  · rw [decimalDigits_eq m h0, List.length_reverse, Nat.digits_len 10 m (by decide) h0]

theorem digitChar_spec (d : Nat) (h : d < 10) :
    (digitChar d).isDigit = true ∧ parseInt (digitChar d) = .finite d
      ∧ not isNaN (digitChar d) = true := by
  interval_cases d <;> decide

theorem stripZeros_subset : ∀ (l : List Nat) (d : Nat), d ∈ stripZeros l → d ∈ l := by
  intro l
  induction l with
  | nil => intro d h; exact h
  | cons a as ih =>
    intro d h
    simp only [stripZeros] at h
    split at h
    · split at h
      · exact absurd h (List.not_mem_nil d)
      · rw [List.mem_singleton] at h
        rw [h]
        exact List.mem_cons_self _ _
    · next d' ds' heq =>
      rw [List.mem_cons] at h
      rcases h with h | h
      · rw [h]
        exact List.mem_cons_self _ _
      · exact List.mem_cons_of_mem _ (ih d (heq ▸ h))

theorem isDigit_of_isFormatChar (c : Char) (hf : isFormatChar c = true)
    (hs : not isNaN c = true) : c.isDigit = true := by
  by_cases hd : c.isDigit = true
  · exact hd
  · unfold isFormatChar at hf
    rw [Bool.or_eq_true] at hf
    have hc := hf.resolve_left hd
    have ha := List.contains_iff_exists_mem_beq.mp hc
    obtain ⟨a, ha, hca⟩ := ha
    have hca2 : c = a := eq_of_beq hca
    subst hca2
    simp only [List.mem_cons, List.mem_singleton, List.not_mem_nil, or_false] at ha
    rcases ha with h | h | h | h | h | h | h | h | h | h | h | h <;> subst h <;>
      exact absurd hs (by decide)

/-! ## Lemmas on number formatting and `digitList` -/

theorem isFormatChar_digitChar (d : Nat) (h : d < 10) : isFormatChar (digitChar d) = true := by
  unfold isFormatChar
  rw [(digitChar_spec d h).1]
  rfl

theorem decimal_toList (m : Nat) : (decimal m).toList = (decimalDigits m).map digitChar := rfl

theorem decimal_chars (m : Nat) (c : Char) (h : c ∈ (decimal m).toList) :
    isFormatChar c = true := by
  rw [decimal_toList, List.mem_map] at h
  obtain ⟨d, hd, hdc⟩ := h
  rw [← hdc]
  exact isFormatChar_digitChar d (decimalDigits_lt m d hd)

theorem natToString_unfold (m : Nat) :
    natToString m
      = if shortestDecimal m < 10 ^ 21 then decimal (shortestDecimal m)
        else
          match stripZeros (decimalDigits (shortestDecimal m)) with
          | [] => "0"
          | [d] => String.mk [digitChar d] ++ "e+"
              ++ decimal ((decimalDigits (shortestDecimal m)).length - 1)
          | d :: ds => String.mk (digitChar d :: '.' :: ds.map digitChar) ++ "e+"
              ++ decimal ((decimalDigits (shortestDecimal m)).length - 1) := rfl

theorem natToString_chars (m : Nat) (c : Char) (h : c ∈ (natToString m).toList) :
    isFormatChar c = true := by
  rw [natToString_unfold] at h
  split at h
  · exact decimal_chars _ c h
  · have hstrip : ∀ d, d ∈ stripZeros (decimalDigits (shortestDecimal m)) → d < 10 :=
      fun d hd => decimalDigits_lt _ d (stripZeros_subset _ d hd)
    cases hs : stripZeros (decimalDigits (shortestDecimal m)) with
    | nil =>
      rw [hs] at h
      have h2 : c ∈ ['0'] := h
      rw [List.mem_singleton.mp h2]
      decide
    | cons d ds =>
      rw [hs] at h hstrip
      have hd : d < 10 := hstrip d (List.mem_cons_self _ _)
      cases ds with
      | nil =>
        simp only [String.toList, String.data_append, List.mem_append] at h
        rcases h with (h | h) | h
        · rw [List.mem_singleton.mp h]
          exact isFormatChar_digitChar d hd
        · have h2 : c ∈ ['e', '+'] := h
          simp only [List.mem_cons, List.mem_singleton, List.not_mem_nil, or_false] at h2
          rcases h2 with rfl | rfl <;> decide
        · exact decimal_chars _ c h
      | cons d2 ds2 =>
        simp only [String.toList, String.data_append, List.mem_append] at h
        rcases h with (h | h) | h
        · rw [List.mem_cons, List.mem_cons, List.mem_map] at h
          rcases h with rfl | rfl | ⟨a, ha, rfl⟩
          · exact isFormatChar_digitChar d hd
          · decide
          · exact isFormatChar_digitChar a (hstrip a (List.mem_cons_of_mem _ ha))
        · have h2 : c ∈ ['e', '+'] := h
          simp only [List.mem_cons, List.mem_singleton, List.not_mem_nil, or_false] at h2
          rcases h2 with rfl | rfl <;> decide
        · exact decimal_chars _ c h

theorem natToString_head (m : Nat) :
    ∃ (d : Nat) (rest : List Char), d < 10 ∧ (natToString m).toList = digitChar d :: rest := by
  rw [natToString_unfold]
  split
  · rw [decimal_toList]
    cases hds : decimalDigits (shortestDecimal m) with
    | nil => exact absurd hds (decimalDigits_ne_nil _)
    | cons d ds =>
      refine ⟨d, ds.map digitChar, ?_, rfl⟩
      exact decimalDigits_lt _ d (by rw [hds]; exact List.mem_cons_self _ _)
  · have hstrip : ∀ d, d ∈ stripZeros (decimalDigits (shortestDecimal m)) → d < 10 :=
      fun d hd => decimalDigits_lt _ d (stripZeros_subset _ d hd)
    cases hs : stripZeros (decimalDigits (shortestDecimal m)) with
    | nil => exact ⟨0, [], by decide, rfl⟩
    | cons d ds =>
      rw [hs] at hstrip
      have hd : d < 10 := hstrip d (List.mem_cons_self _ _)
      cases ds with
      | nil =>
        refine ⟨d, ('e' :: '+' ::
          (decimal ((decimalDigits (shortestDecimal m)).length - 1)).toList), hd, ?_⟩
        simp only [String.toList, String.data_append]
        rfl
      | cons d2 ds2 =>
        refine ⟨d, ('.' :: (d2 :: ds2).map digitChar) ++ ('e' :: '+' ::
          (decimal ((decimalDigits (shortestDecimal m)).length - 1)).toList), hd, ?_⟩
        simp only [String.toList, String.data_append, List.cons_append, List.append_assoc,
          List.nil_append]

theorem numberToString_finite (n : Int) :
    numberToString (.finite n)
      = if n < 0 then "-" ++ natToString n.natAbs else natToString n.natAbs := rfl

theorem numberToString_chars (x : JSNumber) (c : Char) (h : c ∈ (numberToString x).toList) :
    isFormatChar c = true := by
  cases x with
  | nan =>
    have h2 : c ∈ ['N', 'a', 'N'] := h
    simp only [List.mem_cons, List.mem_singleton, List.not_mem_nil, or_false] at h2
    rcases h2 with rfl | rfl | rfl <;> decide
  | infinity s =>
    cases s with
    | false =>
      have h2 : c ∈ ['I', 'n', 'f', 'i', 'n', 'i', 't', 'y'] := h
      simp only [List.mem_cons, List.mem_singleton, List.not_mem_nil, or_false] at h2
      rcases h2 with rfl | rfl | rfl | rfl | rfl | rfl | rfl | rfl <;> decide
    | true =>
      have h2 : c ∈ ['-', 'I', 'n', 'f', 'i', 'n', 'i', 't', 'y'] := h
      simp only [List.mem_cons, List.mem_singleton, List.not_mem_nil, or_false] at h2
      rcases h2 with rfl | rfl | rfl | rfl | rfl | rfl | rfl | rfl | rfl <;> decide
  | finite n =>
    rw [numberToString_finite] at h
    split at h
    · simp only [String.toList, String.data_append, List.mem_append] at h
      rcases h with h | h
      · have h2 : c ∈ ['-'] := h
        rw [List.mem_singleton.mp h2]
        decide
      · exact natToString_chars _ c h
    · exact natToString_chars _ c h

theorem digitList_finite (n : Int) :
    digitList (.finite n)
      = (((natToString n.natAbs).toList).filter (not isNaN)).map (fun x => parseInt x) := by
  unfold digitList
  rw [numberToString_finite]
  split
  · simp only [String.toList, String.data_append]
    rw [List.filter_append]
    rfl
  · rfl

theorem filter_map_digitChars (ds : List Nat) (h : ∀ d, d ∈ ds → d < 10) :
    ((ds.map digitChar).filter (not isNaN)).map (fun x => parseInt x)
      = ds.map (fun (d : Nat) => JSNumber.finite (d : Int)) := by
  induction ds with
  | nil => rfl
  | cons d ds ih =>
    have hd := digitChar_spec d (h d (List.mem_cons_self _ _))
    rw [List.map_cons, List.filter_cons_of_pos hd.2.2, List.map_cons, hd.2.1,
      ih (fun a ha => h a (List.mem_cons_of_mem _ ha)), List.map_cons]

theorem digitList_ne_nil (n : Int) : digitList (.finite n) ≠ [] := by
  obtain ⟨d, rest, hd, heq⟩ := natToString_head n.natAbs
  rw [digitList_finite, heq, List.filter_cons_of_pos (digitChar_spec d hd).2.2, List.map_cons]
  exact List.cons_ne_nil _ _

theorem digitList_of_lt (n : Int) (h : n.natAbs < 2 ^ 53) :
    digitList (.finite n)
      = (decimalDigits n.natAbs).map (fun (d : Nat) => JSNumber.finite (d : Int)) := by
  rw [digitList_finite, natToString_of_lt _ h, decimal_toList]
  exact filter_map_digitChars _ (decimalDigits_lt _)

/-! ## Lemmas on the digit count of the printed decimal -/

theorem roundNat_pow_ten (D : Nat) (h : D ≤ 21) : roundNat (10 ^ D) = 10 ^ D := by
  interval_cases D <;> decide

theorem shortestAt_cases (m D k v : Nat) (h : shortestAt m D k = some v) :
    v = m / 10 ^ (D - k) * 10 ^ (D - k)
      ∨ v = m / 10 ^ (D - k) * 10 ^ (D - k) + 10 ^ (D - k) := by
  unfold shortestAt at h
  simp only at h
  split at h
  · injection h with h
    rw [← h]
    split
    · exact Or.inl rfl
    · split
      · exact Or.inr rfl
      · split
        · exact Or.inl rfl
        · exact Or.inr rfl
  · injection h with h
    exact Or.inl h.symm
  · injection h with h
    exact Or.inr h.symm
  · exact absurd h (by simp)

theorem shortestFrom_cases (m D : Nat) : ∀ (fuel k : Nat), 1 ≤ k →
    shortestFrom m D fuel k = m
      ∨ (roundNat (shortestFrom m D fuel k) = m
        ∧ ∃ j, j ≤ D - 1
          ∧ (shortestFrom m D fuel k = m / 10 ^ j * 10 ^ j
            ∨ shortestFrom m D fuel k = m / 10 ^ j * 10 ^ j + 10 ^ j)) := by
  intro fuel
  induction fuel with
  | zero => intro k _; exact Or.inl rfl
  | succ fuel ih =>
    intro k hk
    simp only [shortestFrom]
    split
    · next v hv =>
      exact Or.inr ⟨shortestAt_some m D k v hv, D - k, by omega, shortestAt_cases m D k v hv⟩
    · exact ih (k + 1) (by omega)

theorem candidate_bounds (m L j : Nat) (hj : j ≤ L) (hlo : 10 ^ L ≤ m)
    (hhi : m < 10 ^ (L + 1)) :
    10 ^ L ≤ m / 10 ^ j * 10 ^ j ∧ m / 10 ^ j * 10 ^ j ≤ m
      ∧ m / 10 ^ j * 10 ^ j + 10 ^ j ≤ 10 ^ (L + 1) := by
  have hp : 0 < 10 ^ j := Nat.pow_pos (by decide)
  have e1 : 10 ^ L = 10 ^ (L - j) * 10 ^ j := by
    rw [← Nat.pow_add]
    congr 1
    omega
  have e2 : 10 ^ (L + 1) = 10 ^ (L + 1 - j) * 10 ^ j := by
    rw [← Nat.pow_add]
    congr 1
    omega
  refine ⟨?_, Nat.div_mul_le_self m _, ?_⟩
  · have h1 : 10 ^ (L - j) ≤ m / 10 ^ j := by
      rw [Nat.le_div_iff_mul_le hp, ← e1]
      exact hlo
    calc 10 ^ L = 10 ^ (L - j) * 10 ^ j := e1
      _ ≤ m / 10 ^ j * 10 ^ j := Nat.mul_le_mul_right _ h1
  · have h1 : m / 10 ^ j < 10 ^ (L + 1 - j) := by
      rw [Nat.div_lt_iff_lt_mul hp, ← e2]
      exact hhi
    calc m / 10 ^ j * 10 ^ j + 10 ^ j = (m / 10 ^ j + 1) * 10 ^ j := by
          rw [Nat.add_mul, Nat.one_mul]
      _ ≤ 10 ^ (L + 1 - j) * 10 ^ j := Nat.mul_le_mul_right _ h1
      _ = 10 ^ (L + 1) := e2.symm

theorem shortestDecimal_log (m : Nat) (h : m < 10 ^ 21) :
    Nat.log 10 (shortestDecimal m) = Nat.log 10 m ∧ shortestDecimal m < 10 ^ 21 := by
  by_cases h0 : m = 0
  · subst h0
    rw [shortestDecimal_of_lt 0 (by decide)]
    exact ⟨rfl, h⟩
  · have hlo : 10 ^ Nat.log 10 m ≤ m := Nat.pow_log_le_self 10 h0
    have hhi : m < 10 ^ (Nat.log 10 m + 1) := Nat.lt_pow_succ_log_self (by decide) m
    have hL : Nat.log 10 m + 1 ≤ 21 := by
      have h1 : 10 ^ Nat.log 10 m < 10 ^ 21 := Nat.lt_of_le_of_lt hlo h
      have h2 := (Nat.pow_lt_pow_iff_right (by decide : 1 < 10)).mp h1
      omega
    have hD : 10 ^ (Nat.log 10 m + 1) ≤ 10 ^ 21 := Nat.pow_le_pow_right (by decide) hL
    have key : 10 ^ Nat.log 10 m ≤ shortestDecimal m
        ∧ shortestDecimal m < 10 ^ (Nat.log 10 m + 1) := by
      unfold shortestDecimal
      rw [length_decimalDigits]
      rcases shortestFrom_cases m (Nat.log 10 m + 1) (Nat.log 10 m + 1) 1 (Nat.le_refl 1)
        with hv | ⟨hr, j, hj, hv⟩
      · rw [hv]
        exact ⟨hlo, hhi⟩
      · have hb := candidate_bounds m (Nat.log 10 m) j (by omega) hlo hhi
        rcases hv with hv | hv
        · rw [hv]
          exact ⟨hb.1, Nat.lt_of_le_of_lt hb.2.1 hhi⟩
        · rw [hv]
          refine ⟨Nat.le_trans hb.1 (Nat.le_add_right _ _), ?_⟩
          rcases Nat.lt_or_eq_of_le hb.2.2 with hlt | heq
          · exact hlt
          · rw [hv, heq, roundNat_pow_ten _ hL] at hr
            omega
    exact ⟨Nat.log_eq_of_pow_le_of_lt_pow key.1 key.2, Nat.lt_of_lt_of_le key.2 hD⟩

theorem digitList_length_of_lt (n : Int) (h : n.natAbs < 10 ^ 21) :
    (digitList (.finite n)).length = (decimalDigits n.natAbs).length := by
  have hs := shortestDecimal_log n.natAbs h
  rw [digitList_finite, natToString_unfold, if_pos hs.2, decimal_toList,
    filter_map_digitChars _ (decimalDigits_lt _), List.length_map, length_decimalDigits,
    length_decimalDigits, hs.1]

/-! ## Lemmas on `first3Multiples` -/

theorem first3Multiples_number (x : JSNumber) :
    first3Multiples x = [x, x.mul (.finite 2), x.mul (.finite 3)] := by
  have h2 : toNumber 2 = .finite 2 := by decide
  have h3 : toNumber 3 = .finite 3 := by decide
  show [x, x.mul (toNumber 2), x.mul (toNumber 3)] = _
  rw [h2, h3]

/-! ## Composer: theorems -/

/-- C1: `compose [f1, ..., fn] x` is `f1 (f2 (... (fn x)))`, the right fold that
applies the last-listed function first; peeling the head gives
`compose (f :: fs) x = f (compose fs x)`, and `compose [f, g] x = f (g x)`. -/
theorem compose_eq_nested {α : Type} (fns : List (α → α)) (x : α) :
    compose fns x = fns.foldr (fun f acc => f acc) x
      ∧ (∀ (f : α → α) (fs : List (α → α)), compose (f :: fs) x = f (compose fs x))
      ∧ (∀ f g : α → α, compose [f, g] x = f (g x)) := by
  refine ⟨?_, ?_, ?_⟩
  · simp [compose, reduceRight_eq_foldr]
  · intro f fs
    simp [compose, reduceRight_cons]
  · intro f g
    rfl

/-- C2: `compose` of zero functions is the identity: it returns the initial
value unchanged. -/
theorem compose_nil {α : Type} (x : α) : compose ([] : List (α → α)) x = x := rfl

/-! ## Debug pipeline: theorems -/

/-- C3: `debugBind step` applied to the pair `(prevValue, prevMessage)` returns
the value of `step prevValue`, and as message `prevMessage` followed by the
message of `step prevValue`. -/
theorem debugBind_spec {α : Type} (step : α → DebugPair α) (prevValue : α)
    (prevMessage : String) :
    debugBind step { value := prevValue, message := prevMessage }
      = { value := (step prevValue).value,
          message := prevMessage ++ (step prevValue).message } := rfl

/-- C4: `composeValueMessage [s1, ..., sn] x` is
`debugBind s1 (debugBind s2 (... (debugBind sn (debugUnit x))))`, where
`debugUnit x` is the pair of `x` and the empty message: with zero stages the
result is `debugUnit x`, and a head stage is bound onto the result of the rest. -/
theorem composeValueMessage_eq_fold {α : Type} (stages : List (α → DebugPair α)) (x : α) :
    composeValueMessage stages x = stages.foldr (fun s acc => debugBind s acc) (debugUnit x)
      ∧ debugUnit x = { value := x, message := "" }
      ∧ composeValueMessage ([] : List (α → DebugPair α)) x = debugUnit x
      ∧ (∀ (s : α → DebugPair α) (rest : List (α → DebugPair α)),
          composeValueMessage (s :: rest) x = debugBind s (composeValueMessage rest x)) := by
  refine ⟨?_, rfl, rfl, ?_⟩
  · simp [composeValueMessage, reduceRight_eq_foldr, debugUnit]
  · intro s rest
    exact composeValueMessage_cons s rest x

/-- C5: the message of `composeValueMessage [s1, ..., sn] x` is the
concatenation `m_n ++ ... ++ m_1` of the stage fragments and nothing else,
where `m_i` is the message stage `s_i` returns on the value produced by the
stages after it: the fragment of the last stage first, that of `s1` last. -/
theorem composeValueMessage_message {α : Type} (stages : List (α → DebugPair α)) (x : α) :
    (composeValueMessage stages x).message
      = String.join (((List.range stages.length).map (stageFragment stages x)).reverse) := by
  induction stages with
  | nil => rfl
  | cons s rest ih =>
    rw [composeValueMessage_cons, debugBind_message, ih, List.length_cons, List.range_succ_eq_map,
      List.map_cons, List.map_map, List.reverse_cons, string_join_snoc, stageFragment_zero]
    rfl

/-- C7: a pipeline of the single lifted stage `debugLift fn` returns the value
`fn x` with the empty message. -/
theorem composeValueMessage_lift {α : Type} (fn : α → α) (x : α) :
    composeValueMessage [debugLift fn] x = { value := fn x, message := "" } := rfl

/-! ## List pipeline: theorems -/

/-- C8: `multiValueBind step [a1, ..., ak]` is `step a1 ++ ... ++ step ak`:
one level of flattening, keeping the order of the input and the order inside
each result, so that its length is the sum of the lengths of the `step ai`. -/
theorem multiValueBind_spec {α : Type} (step : α → List α) (xs : List α) :
    multiValueBind step xs = xs.foldr (fun a acc => step a ++ acc) []
      ∧ multiValueBind step xs = (xs.map step).flatten
      ∧ (multiValueBind step xs).length = (xs.map (fun a => (step a).length)).sum
      ∧ (∀ (a : α) (as : List α),
          multiValueBind step (a :: as) = step a ++ multiValueBind step as) := by
  refine ⟨?_, ?_, ?_, ?_⟩
  · induction xs with
    | nil => rfl
    | cons a as ih => rw [multiValueBind_cons, ih, List.foldr_cons]
  · exact flat_eq_flatten _
  · induction xs with
    | nil => rfl
    | cons a as ih => simp [multiValueBind_cons, ih]
  · intro a as
    exact multiValueBind_cons step a as

/-- C9: `composeMultiValue [s1, ..., sn] x` is
`multiValueBind s1 (multiValueBind s2 (... (multiValueBind sn (multiValueUnit x))))`
with the singleton `[x]` as seed; with zero stages the result is `[x]`. -/
theorem composeMultiValue_eq_fold {α : Type} (stages : List (α → List α)) (x : α) :
    composeMultiValue stages x
        = stages.foldr (fun s acc => multiValueBind s acc) (multiValueUnit x)
      ∧ multiValueUnit x = [x]
      ∧ composeMultiValue ([] : List (α → List α)) x = [x]
      ∧ (∀ (s : α → List α) (rest : List (α → List α)),
          composeMultiValue (s :: rest) x = multiValueBind s (composeMultiValue rest x)) := by
  refine ⟨?_, rfl, rfl, ?_⟩
  · simp [composeMultiValue, reduceRight_eq_foldr]
  · intro s rest
    exact composeMultiValue_cons s rest x

/-! ## Example stages: theorems -/

/-- C6, amended: for every integer `x` with `x^2 + 5 < 2^53`, the pipeline
`composeValueMessage [debugAdd5, debugSquare]` squares first and adds 5
second: its value is `x^2 + 5` and its message is the decimal text
`{x}^2 = {x^2}.` followed by `{x^2} + 5 = {x^2 + 5}.`; for `x = 3` the value
is `14` and the message is `3^2 = 9.9 + 5 = 14.`. -/
theorem composeValueMessage_add5_square (x : Int) (h : x ^ 2 + 5 < 2 ^ 53) :
    composeValueMessage [debugAdd5, debugSquare] (.finite x)
        = { value := .finite (x ^ 2 + 5),
            message := (decimalInt x ++ "^2 = " ++ decimalInt (x ^ 2) ++ ".")
              ++ (decimalInt (x ^ 2) ++ " + 5 = " ++ decimalInt (x ^ 2 + 5) ++ ".") }
      ∧ composeValueMessage [debugAdd5, debugSquare] (.finite 3)
        = { value := .finite 14, message := "3^2 = 9.9 + 5 = 14." } := by
  refine ⟨?_, by decide⟩
  have hsq : 0 ≤ x ^ 2 := sq_nonneg x
  have hx : x.natAbs < 2 ^ 53 := by
    have h1 : (x.natAbs : Int) ≤ x ^ 2 := by
      rw [← Int.natAbs_sq x]
      have h0 : (0 : Int) ≤ x.natAbs := Int.ofNat_nonneg _
      nlinarith [h0, sq_nonneg ((x.natAbs : Int) - 1)]
    omega
  have hx2 : (x ^ 2).natAbs < 2 ^ 53 := by omega
  have hx5 : (x ^ 2 + 5).natAbs < 2 ^ 53 := by omega
  have hpow : mathPow (.finite x) 2 = .finite (x ^ 2) := by
    show toNumber (x ^ 2) = _
    exact toNumber_of_lt _ hx2
  have hadd : (JSNumber.finite (x ^ 2)).add (.finite 5) = .finite (x ^ 2 + 5) := by
    show toNumber (x ^ 2 + 5) = _
    exact toNumber_of_lt _ hx5
  rw [composeValueMessage_cons, composeValueMessage_cons, composeValueMessage_nil]
  simp only [debugUnit, debugBind, debugSquare, debugAdd5, hpow, hadd,
    numberToString_of_lt _ hx, numberToString_of_lt _ hx2, numberToString_of_lt _ hx5]
  simp

/-- C6, witness of the amended statement at `x = -7`. -/
theorem composeValueMessage_add5_square_witness :
    (-7 : Int) ^ 2 + 5 < 2 ^ 53
      ∧ composeValueMessage [debugAdd5, debugSquare] (.finite (-7))
        = { value := .finite 54, message := "-7^2 = 49.49 + 5 = 54." } :=
  ⟨by decide, (composeValueMessage_add5_square (-7) (by decide)).1.trans (by decide)⟩

/-- C6, as stated, fails at `x = 134217728 = 2^27`: the square `2^54` is a
double but `2^54 + 5` is not, the sum is rounded to `2^54 + 4`, and both the
value and the message carry the rounded number instead of `x^2 + 5`. -/
theorem composeValueMessage_add5_square_rounds :
    composeValueMessage [debugAdd5, debugSquare] (.finite 134217728)
        = { value := .finite 18014398509481988,
            message := "134217728^2 = 18014398509481984.18014398509481984 + 5 = 18014398509481988." }
      ∧ (composeValueMessage [debugAdd5, debugSquare] (.finite 134217728)).value
        ≠ .finite (134217728 ^ 2 + 5) := by
  decide

/-- C10: `composeMultiValue [digitList, first3Multiples] x` is
`digitList x ++ digitList (x * 2) ++ digitList (x * 3)`: the multiples are
computed first and the digits of each are concatenated in their order; on an
integer `n` the two products are the doubles of `2 n` and `3 n`, and for
`x = 12` the result is `[1, 2, 2, 4, 3, 6]`. -/
theorem composeMultiValue_digitList_first3Multiples :
    (∀ x : JSNumber, composeMultiValue [digitList, first3Multiples] x
        = digitList x ++ digitList (x.mul (.finite 2)) ++ digitList (x.mul (.finite 3)))
      ∧ (∀ n : Int, composeMultiValue [digitList, first3Multiples] (.finite n)
        = digitList (.finite n) ++ digitList (toNumber (2 * n)) ++ digitList (toNumber (3 * n)))
      ∧ first3Multiples (JSNumber.finite 12) = [.finite 12, .finite 24, .finite 36]
      ∧ composeMultiValue [digitList, first3Multiples] (.finite 12)
        = [.finite 1, .finite 2, .finite 2, .finite 4, .finite 3, .finite 6] := by
  have key : ∀ x : JSNumber, composeMultiValue [digitList, first3Multiples] x
      = digitList x ++ digitList (x.mul (.finite 2)) ++ digitList (x.mul (.finite 3)) := by
    intro x
    rw [composeMultiValue_cons, composeMultiValue_cons, composeMultiValue_nil]
    simp [multiValueBind_cons, multiValueBind_nil, first3Multiples_number]
  refine ⟨key, ?_, by decide, by decide⟩
  intro n
  rw [key]
  simp only [JSNumber.mul, Int.mul_comm n]

/-! ## Monad laws and lifting: lemmas -/

theorem multiValueBind_unit {α : Type} (xs : List α) :
    multiValueBind (fun y => multiValueUnit y) xs = xs := by
  induction xs with
  | nil => rfl
  | cons a as ih => rw [multiValueBind_cons, ih]; rfl

theorem multiValueBind_assoc {α : Type} (f g : α → List α) (xs : List α) :
    multiValueBind g (multiValueBind f xs)
      = multiValueBind (fun x => multiValueBind g (f x)) xs := by
  induction xs with
  | nil => rfl
  | cons a as ih =>
    rw [multiValueBind_cons, multiValueBind_cons, multiValueBind_append, ih]

theorem multiValueBind_eq_nil {α : Type} (step : α → List α) (h : ∀ a, step a = [])
    (zs : List α) : multiValueBind step zs = [] := by
  induction zs with
  | nil => rfl
  | cons a as ih => rw [multiValueBind_cons, h a, ih]; rfl

theorem composeMultiValue_append {α : Type} (A B : List (α → List α)) (x : α) :
    composeMultiValue (A ++ B) x
      = A.foldr (fun s acc => multiValueBind s acc) (composeMultiValue B x) := by
  induction A with
  | nil => rfl
  | cons s A ih => rw [List.cons_append, composeMultiValue_cons, ih, List.foldr_cons]

theorem foldr_multiValueBind_nil {α : Type} (A : List (α → List α)) :
    A.foldr (fun s acc => multiValueBind s acc) [] = [] := by
  induction A with
  | nil => rfl
  | cons s A ih => rw [List.foldr_cons, ih]; rfl

theorem foldr_multiValueBind_eq {α : Type} (A : List (α → List α)) (zs : List α) :
    A.foldr (fun s acc => multiValueBind s acc) zs
      = multiValueBind (fun y => composeMultiValue A y) zs := by
  induction A with
  | nil =>
    rw [List.foldr_nil]
    exact (multiValueBind_unit zs).symm
  | cons s A ih =>
    rw [List.foldr_cons, ih, multiValueBind_assoc]
    congr 1
    funext y
    rw [composeMultiValue_cons]

/-! ## List pipeline: further theorems -/

/-- C12: `composeMultiValue [first3Multiples] x` is `[x, x * 2, x * 3]` in that
order for every `x` of every carrier of numbers, whatever its product, so for
fractions as well (`1/2` gives `[1/2, 1, 3/2]`); on host numbers the products
are `JSNumber.mul`, on an integer `n` they are the doubles of `2 n` and `3 n`,
and for `x = 2` the result is `[2, 4, 6]`. -/
theorem composeMultiValue_first3Multiples :
    (∀ (α : Type) [Mul α] [OfNat α 2] [OfNat α 3] (x : α),
        composeMultiValue [first3Multiples] x = [x, x * 2, x * 3])
      ∧ (∀ x : JSNumber, composeMultiValue [first3Multiples] x
        = [x, x.mul (.finite 2), x.mul (.finite 3)])
      ∧ (∀ n : Int, composeMultiValue [first3Multiples] (.finite n)
        = [.finite n, toNumber (2 * n), toNumber (3 * n)])
      ∧ composeMultiValue [first3Multiples] (JSNumber.finite 2)
        = [.finite 2, .finite 4, .finite 6]
      ∧ composeMultiValue [first3Multiples] (1 / 2 : ℚ) = [1 / 2, 1, 3 / 2] := by
  have gen : ∀ (α : Type) [Mul α] [OfNat α 2] [OfNat α 3] (x : α),
      composeMultiValue [first3Multiples] x = [x, x * 2, x * 3] := by
    intro α _ _ _ x
    rw [composeMultiValue_cons, composeMultiValue_nil, multiValueBind_cons, multiValueBind_nil,
      List.append_nil]
    rfl
  have key : ∀ x : JSNumber, composeMultiValue [first3Multiples] x
      = [x, x.mul (.finite 2), x.mul (.finite 3)] := by
    intro x
    rw [gen JSNumber x]
    exact first3Multiples_number x
  refine ⟨gen, key, ?_, by decide, ?_⟩
  · intro n
    rw [key]
    simp only [JSNumber.mul, Int.mul_comm n]
  · rw [gen ℚ (1 / 2)]
    norm_num

/-- C13: a pipeline of the single lifted stage `multiValueLift fn` returns the
singleton `[fn x]`. -/
theorem composeMultiValue_lift {α : Type} (fn : α → α) (x : α) :
    composeMultiValue [multiValueLift fn] x = [fn x] := rfl

/-- C14: when `step e = []`, the element `e` contributes nothing:
`multiValueBind step (xs ++ [e] ++ ys) = multiValueBind step (xs ++ ys)`;
`multiValueBind step [] = []`, and a stage that returns `[]` on every element
makes its own result and that of a whole pipeline containing it empty. -/
theorem multiValueBind_skip_empty {α : Type} (step : α → List α) (xs ys : List α) (e : α)
    (h : step e = []) :
    multiValueBind step (xs ++ [e] ++ ys) = multiValueBind step (xs ++ ys)
      ∧ multiValueBind step [] = []
      ∧ ((∀ a, step a = []) →
          (∀ zs, multiValueBind step zs = [])
            ∧ ∀ (A B : List (α → List α)) (x : α),
                composeMultiValue (A ++ step :: B) x = []) := by
  refine ⟨?_, rfl, ?_⟩
  · rw [multiValueBind_append, multiValueBind_append, multiValueBind_append, multiValueBind_cons,
      multiValueBind_nil, h]
    simp
  · intro hall
    refine ⟨multiValueBind_eq_nil step hall, ?_⟩
    intro A B x
    rw [composeMultiValue_append, composeMultiValue_cons, multiValueBind_eq_nil step hall]
    exact foldr_multiValueBind_nil A

/-- C14, witness: the stage that drops `0` and keeps every other number. -/
theorem multiValueBind_skip_empty_witness :
    (fun n : Nat => if n = 0 then [] else [n]) 0 = []
      ∧ multiValueBind (fun n : Nat => if n = 0 then [] else [n]) ([1, 2] ++ [0] ++ [3])
        = multiValueBind (fun n : Nat => if n = 0 then [] else [n]) ([1, 2] ++ [3])
      ∧ multiValueBind (fun n : Nat => if n = 0 then [] else [n]) [1, 2, 0, 3] = [1, 2, 3] :=
  ⟨rfl,
    (multiValueBind_skip_empty (fun n : Nat => if n = 0 then [] else [n]) [1, 2] [3] 0 rfl).1,
    by decide⟩

/-- C17: `multiValueBind` is associative:
`multiValueBind g (multiValueBind f xs) = multiValueBind (fun x => multiValueBind g (f x)) xs`,
and therefore `composeMultiValue (A ++ B) x` is
`multiValueBind (fun y => composeMultiValue A y) (composeMultiValue B x)`. -/
theorem multiValueBind_assoc_compose {α : Type} (f g : α → List α) (xs : List α) :
    multiValueBind g (multiValueBind f xs)
        = multiValueBind (fun x => multiValueBind g (f x)) xs
      ∧ ∀ (A B : List (α → List α)) (x : α),
          composeMultiValue (A ++ B) x
            = multiValueBind (fun y => composeMultiValue A y) (composeMultiValue B x) := by
  refine ⟨multiValueBind_assoc f g xs, ?_⟩
  intro A B x
  rw [composeMultiValue_append, foldr_multiValueBind_eq]

/-! ## Debug pipeline: further theorems -/

/-- C16: `debugUnit` and `debugBind` satisfy the monad laws: associativity
`debugBind g (debugBind f p) = debugBind (fun x => debugBind g (f x)) p`, left
identity `debugBind f (debugUnit x) = f x` and right identity
`debugBind debugUnit p = p`. -/
theorem debugBind_monad_laws {α : Type} (f g : α → DebugPair α) (p : DebugPair α) (x : α) :
    debugBind g (debugBind f p) = debugBind (fun y => debugBind g (f y)) p
      ∧ debugBind f (debugUnit x) = f x
      ∧ debugBind debugUnit p = p := by
  refine ⟨?_, ?_, ?_⟩
  · simp only [debugBind, String.append_assoc]
  · simp only [debugBind, debugUnit, String.empty_append]
  · simp only [debugBind, debugUnit, String.append_empty]

/-- C18: lifting commutes with composition:
`composeValueMessage [debugLift f1, ..., debugLift fn] x` is
`debugUnit (compose [f1, ..., fn] x)`, with the empty message, and
`composeMultiValue [multiValueLift f1, ..., multiValueLift fn] x` is
`[compose [f1, ..., fn] x]`. -/
theorem lift_commutes_with_compose {α : Type} (fns : List (α → α)) (x : α) :
    composeValueMessage (fns.map debugLift) x = debugUnit (compose fns x)
      ∧ composeValueMessage (fns.map debugLift) x
        = { value := compose fns x, message := "" }
      ∧ composeMultiValue (fns.map multiValueLift) x = [compose fns x] := by
  have hc : ∀ (f : α → α) (fs : List (α → α)), compose (f :: fs) x = f (compose fs x) := by
    intro f fs
    simp [compose, reduceRight_cons]
  have h1 : ∀ l : List (α → α),
      composeValueMessage (l.map debugLift) x = debugUnit (compose l x) := by
    intro l
    induction l with
    | nil => rfl
    | cons f fs ih =>
      rw [List.map_cons, composeValueMessage_cons, ih, hc]
      rfl
  have h2 : ∀ l : List (α → α),
      composeMultiValue (l.map multiValueLift) x = [compose l x] := by
    intro l
    induction l with
    | nil => rfl
    | cons f fs ih =>
      rw [List.map_cons, composeMultiValue_cons, ih, hc]
      rfl
  exact ⟨h1 fns, h1 fns, h2 fns⟩

/-- C19: messages never influence the value: the value of
`composeValueMessage [s1, ..., sn] x` is `compose [v1, ..., vn] x` with
`vi y` the value of `si y`; so two pipelines whose stages agree on values
return the same value, whatever their messages. -/
theorem composeValueMessage_value {α : Type} (stages : List (α → DebugPair α)) (x : α) :
    (composeValueMessage stages x).value
        = compose (stages.map (fun s y => (s y).value)) x
      ∧ ∀ others : List (α → DebugPair α),
          List.Forall₂ (fun s t => ∀ y, (s y).value = (t y).value) stages others →
            (composeValueMessage stages x).value = (composeValueMessage others x).value := by
  have hv : ∀ (l : List (α → DebugPair α)), (composeValueMessage l x).value
      = compose (l.map (fun s y => (s y).value)) x := by
    intro l
    induction l with
    | nil => rfl
    | cons s rest ih =>
      rw [composeValueMessage_cons, debugBind_value, ih, List.map_cons]
      simp [compose, reduceRight_cons]
  refine ⟨hv stages, ?_⟩
  intro others hrel
  rw [hv stages, hv others]
  congr 1
  induction hrel with
  | nil => rfl
  | cons hst _ ih =>
    rw [List.map_cons, List.map_cons, ih]
    congr 1
    funext y
    exact hst y

/-- C19, witness: two pipelines that differ only in their messages. -/
theorem composeValueMessage_value_witness :
    (composeValueMessage [debugAdd5, debugSquare] (.finite 3)).value
      = (composeValueMessage
          [fun y => { value := (debugAdd5 y).value, message := "a" },
           fun y => { value := (debugSquare y).value, message := "b" }] (.finite 3)).value :=
  (composeValueMessage_value [debugAdd5, debugSquare] (.finite 3)).2 _
    (List.Forall₂.cons (fun _ => rfl) (List.Forall₂.cons (fun _ => rfl) List.Forall₂.nil))

/-! ## Digit extraction: theorems -/

/-- C11, amended: for every integer `n` with `|n| < 2^53`, `digitList n` is the
sequence of base-10 digits of `|n|`, most significant first, each as an
integer and with the sign dropped: every digit is below 10, for `n ≠ 0` the
list is the reverse of `Nat.digits 10 |n|`, reading it back as a decimal
numeral gives `|n|`, and `digitList 0 = [0]`. -/
theorem digitList_digits (n : Int) (h : n.natAbs < 2 ^ 53) :
    digitList (.finite n)
        = (decimalDigits n.natAbs).map (fun (d : Nat) => JSNumber.finite (d : Int))
      ∧ (n ≠ 0 → decimalDigits n.natAbs = (Nat.digits 10 n.natAbs).reverse)
      ∧ (∀ d ∈ decimalDigits n.natAbs, d < 10)
      ∧ Nat.ofDigits 10 (decimalDigits n.natAbs).reverse = n.natAbs
      ∧ digitList (.finite 0) = [.finite 0] := by
  refine ⟨digitList_of_lt n h, ?_, decimalDigits_lt _, ofDigits_decimalDigits _, by decide⟩
  intro hn
  exact decimalDigits_eq _ (Int.natAbs_ne_zero.mpr hn)

/-- C11, witness of the amended statement at `n = -4096`. -/
theorem digitList_digits_witness :
    (-4096 : Int).natAbs < 2 ^ 53
      ∧ digitList (.finite (-4096)) = [.finite 4, .finite 0, .finite 9, .finite 6] :=
  ⟨by decide, (digitList_digits (-4096) (by decide)).1.trans (by decide)⟩

/-- C11, as stated, fails at `n = 10^21`: the number is a double, the host
prints it as `1e+21`, and `digitList` returns `[1, 2, 1]`, which is not the
digit sequence of `10^21` and reads back as `121`. -/
theorem digitList_exponent_form :
    toNumber 1000000000000000000000 = .finite 1000000000000000000000
      ∧ numberToString (.finite 1000000000000000000000) = "1e+21"
      ∧ digitList (.finite 1000000000000000000000) = [.finite 1, .finite 2, .finite 1]
      ∧ digitList (.finite 1000000000000000000000)
        ≠ (decimalDigits 1000000000000000000000).map
            (fun (d : Nat) => JSNumber.finite (d : Int))
      ∧ Nat.ofDigits 10 [1, 2, 1] ≠ 1000000000000000000000 := by
  refine ⟨by decide, by decide, by decide, by decide, ?_⟩
  norm_num [Nat.ofDigits]

/-- C15: for every number, in particular every integer, each character of its
string that survives the filter of `digitList` is one of `0` to `9` (the sign
is removed), so `parseInt` is applied to digit characters only and never
returns `NaN`, and every element of `digitList` is an integer from 0 to 9. -/
theorem digitList_parses_digits (x : JSNumber) :
    (∀ c ∈ (numberToString x).toList, not isNaN c = true → c.isDigit = true)
      ∧ not isNaN '-' = false
      ∧ (∀ c ∈ ((numberToString x).toList).filter (not isNaN), parseInt c ≠ .nan)
      ∧ (∀ y ∈ digitList x, ∃ d : Nat, d ≤ 9 ∧ y = .finite d) := by
  have hdig : ∀ c ∈ ((numberToString x).toList).filter (not isNaN), c.isDigit = true := by
    intro c hc
    rw [List.mem_filter] at hc
    exact isDigit_of_isFormatChar c (numberToString_chars x c hc.1) hc.2
  refine ⟨?_, by decide, ?_, ?_⟩
  · intro c hc hs
    exact isDigit_of_isFormatChar c (numberToString_chars x c hc) hs
  · intro c hc
    simp [parseInt, hdig c hc]
  · intro y hy
    unfold digitList at hy
    rw [List.mem_map] at hy
    obtain ⟨c, hc, hcy⟩ := hy
    have hd := hdig c hc
    have hb : 48 ≤ c.toNat ∧ c.toNat ≤ 57 := by
      simp only [Char.isDigit, Bool.and_eq_true, decide_eq_true_eq] at hd
      exact ⟨hd.1, hd.2⟩
    refine ⟨c.toNat - 48, by omega, ?_⟩
    rw [← hcy]
    simp only [parseInt, hd, if_true]
    congr 1
    omega

/-- C15, witness: the element `3` of `digitList (-305)` lies between 0 and 9. -/
theorem digitList_parses_digits_witness :
    ∃ d : Nat, d ≤ 9 ∧ JSNumber.finite 3 = .finite d :=
  (digitList_parses_digits (.finite (-305))).2.2.2 (.finite 3) (by decide)

/-- C20, amended: for every integer `n`, `digitList n` is non-empty and
`digitList (-n) = digitList n`, so on integer inputs the stage never returns
the empty sequence and never drops a branch of a list pipeline; for
`|n| < 10^21` it has exactly as many elements as `|n|` has decimal digits. -/
theorem digitList_nonempty (n : Int) :
    digitList (.finite n) ≠ []
      ∧ 1 ≤ (digitList (.finite n)).length
      ∧ digitList (.finite (-n)) = digitList (.finite n)
      ∧ (∀ ns : List Int,
          ns.length ≤ (multiValueBind digitList (ns.map JSNumber.finite)).length)
      ∧ (n.natAbs < 10 ^ 21 →
          (digitList (.finite n)).length = (decimalDigits n.natAbs).length
            ∧ (decimalDigits n.natAbs).length = Nat.log 10 n.natAbs + 1) := by
  have hpos : ∀ k : Int, 1 ≤ (digitList (.finite k)).length := by
    intro k
    exact List.length_pos.mpr (digitList_ne_nil k)
  refine ⟨digitList_ne_nil n, hpos n, ?_, ?_, ?_⟩
  · rw [digitList_finite, digitList_finite, Int.natAbs_neg]
  · intro ns
    induction ns with
    | nil => exact Nat.zero_le _
    | cons k ks ih =>
      rw [List.map_cons, multiValueBind_cons, List.length_append, List.length_cons]
      have := hpos k
      omega
  · intro h
    exact ⟨digitList_length_of_lt n h, length_decimalDigits _⟩

/-- C20, witness of the amended statement at `n = -2^60`, a double above the
safe integers: 19 elements for 19 decimal digits. -/
theorem digitList_nonempty_witness :
    (-1152921504606846976 : Int).natAbs < 10 ^ 21
      ∧ toNumber (-1152921504606846976) = .finite (-1152921504606846976)
      ∧ (digitList (.finite (-1152921504606846976))).length = 19 :=
  ⟨by decide, by decide,
    ((digitList_nonempty (-1152921504606846976)).2.2.2.2 (by decide)).1.trans (by decide)⟩

/-- C20, as stated, fails at `n = 10^21`: the number is a double with 22
decimal digits, the host prints it as `1e+21`, and `digitList` returns three
elements. -/
theorem digitList_length_exponent_form :
    toNumber 1000000000000000000000 = .finite 1000000000000000000000
      ∧ digitList (.finite 1000000000000000000000) = [.finite 1, .finite 2, .finite 1]
      ∧ (digitList (.finite 1000000000000000000000)).length = 3
      ∧ (decimalDigits 1000000000000000000000).length = 22
      ∧ (Nat.digits 10 1000000000000000000000).length = 22 := by
  refine ⟨by decide, by decide, by decide, by decide, ?_⟩
  rw [← List.length_reverse, ← decimalDigits_eq _ (by decide)]
  decide

end MonadExploration
